import Mathlib

/-! Verification of `extract_urls_browser.js`, the DOJ file-URL extractor.

The script scans the rendered listing page for PDF links, accumulates the
matching hrefs in a `Set`, paginates via a "Next page" control with a
501-iteration safety ceiling, and finally downloads the sorted,
newline-joined list of unique URLs.  Below is a shallow embedding of that
logic: a `Page` models the rendered document, `runAux` models the main
extraction loop (fuel-indexed, one loop iteration per fuel unit), and
`serializeUrls` models `Array.from(allUrls).sort().join("\n")`.
-/

/-- JS `url.includes(sub)`: `sub` occurs as a contiguous substring of `url`. -/
def strIncludes (url sub : String) : Bool :=
  decide (sub.data <:+: url.data)

/-- JS `url.endsWith(sfx)`: `sfx` is a suffix of `url`. -/
def strEndsWith (url sfx : String) : Bool :=
  decide (sfx.data <:+ url.data)

/-- the filter applied to each candidate link:
`url.includes("/epstein/files/") && url.endsWith(".pdf")`. -/
def linkMatches (url : String) : Bool :=
  strIncludes url "/epstein/files/" && strEndsWith url ".pdf"

/-- the query `a[href*=".pdf"]`: of all anchor hrefs on the page, those
containing `".pdf"`, in document order. -/
def pdfCandidates (links : List String) : List String :=
  links.filter (fun u => strIncludes u ".pdf")

/-- JS `Set.prototype.add`: a JS `Set` iterates in insertion order and
ignores an `add` of an element already present. -/
def setAdd (s : List String) (u : String) : List String :=
  if u ∈ s then s else s ++ [u]

/-- the `links.forEach` body of `extractUrlsFromCurrentPage`: every link
passing `linkMatches` is added to the set and counted (whether or not it
was already present).  Returns the updated set and the per-page count. -/
def scanLinks : List String → List String → List String × Nat
  | [], s => (s, 0)
  | l :: ls, s =>
    if linkMatches l then
      let r := scanLinks ls (setAdd s l)
      (r.1, r.2 + 1)
    else
      scanLinks ls s

/-- the rendered document: hrefs of all anchor elements in document order,
and the classList of the `a[aria-label="Next page"]` control when that
control exists (`none` when `querySelector` finds no such element). -/
structure Page where
  links : List String
  next : Option (List String)

/-- `extractUrlsFromCurrentPage()`: scan the `a[href*=".pdf"]` anchors of
the current page, add each match to the URL set, return the page count. -/
def extractUrlsFromCurrentPage (p : Page) (s : List String) : List String × Nat :=
  scanLinks (pdfCandidates p.links) s

/-- `hasNextPage()`: `nextButton && !nextButton.classList.contains("disabled")`. -/
def hasNextPage (p : Page) : Bool :=
  match p.next with
  | none => false
  | some cls => !(cls.contains "disabled")

/-- `goToNextPage()`: clicks the control and returns `true` when it exists,
returns `false` otherwise; the disabled marker is not re-checked. -/
def goToNextPage (p : Page) : Bool :=
  match p.next with
  | some _ => true
  | none => false

/-- the status line emitted after scanning a page. -/
def statusLine (page found total : Nat) : String :=
  "Page " ++ toString page ++ ": Found " ++ toString found ++
    " files (Total: " ++ toString total ++ " unique URLs)"

/-- how the main loop exited. -/
inductive Terminal where
  | exhausted
  | limitReached
deriving DecidableEq

/-- the observable outcome of a run of the main extraction loop.
`advances` records the Boolean result of every `goToNextPage()` call, and
`extractions` counts the calls to `extractUrlsFromCurrentPage()`. -/
structure RunResult where
  urls : List String
  currentPage : Nat
  foundFiles : Nat
  log : List String
  advances : List Bool
  extractions : Nat
  terminal : Terminal
deriving DecidableEq

/-- the main extraction loop.  `pages i` is the document rendered after `i`
next-page clicks; `fuel` bounds the number of remaining iterations (`none`
means the fuel ran out before the loop exited; the loop itself always exits
within 501 iterations).  Each iteration extracts, increments the page
cursor, logs a status line, and then either stops (last page reached, or
safety limit tripped) or clicks through to the next page. -/
def runAux (pages : Nat → Page) : Nat → Nat → Nat → List String → Nat →
    List String → List Bool → Nat → Option RunResult
  | 0, _, _, _, _, _, _, _ => none
  | fuel + 1, i, cur, urls, found, log, adv, ext =>
    let r := extractUrlsFromCurrentPage (pages i) urls
    let cur' := cur + 1
    let log' := log ++ [statusLine cur' r.2 r.1.length]
    if hasNextPage (pages i) = false then
      some ⟨r.1, cur', found + r.2, log' ++ ["✓ Reached last page!"], adv, ext + 1,
        Terminal.exhausted⟩
    else if cur' > 500 then
      some ⟨r.1, cur', found + r.2, log' ++ ["⚠ Safety limit reached (500 pages)"], adv,
        ext + 1, Terminal.limitReached⟩
    else
      runAux pages fuel (i + 1) cur' r.1 (found + r.2) log'
        (adv ++ [goToNextPage (pages i)]) (ext + 1)

/-- a full run: page cursor `0`, empty URL set, empty log. -/
def run (pages : Nat → Page) (fuel : Nat) : Option RunResult :=
  runAux pages fuel 0 0 [] 0 [] [] 0

/-- lexicographic comparison of char sequences, the order used by the JS
default array sort (ascending code-unit comparison). -/
def lexLe : List Char → List Char → Bool
  | [], _ => true
  | _ :: _, [] => false
  | a :: as, b :: bs => if a = b then lexLe as bs else decide (a < b)

/-- the ascending string order of `Array.from(allUrls).sort()`. -/
def urlLe (x y : String) : Prop :=
  lexLe x.data y.data = true

instance : DecidableRel urlLe :=
  fun x y => Bool.decEq (lexLe x.data y.data) true

/-- `Array.from(allUrls).sort()`: the set's elements in ascending order. -/
def sortUrls (s : List String) : List String :=
  List.insertionSort urlLe s

/-- JS `.join("\n")`: no trailing newline, empty string for an empty list. -/
def joinNl : List String → String
  | [] => ""
  | [u] => u
  | u :: v :: rest => u ++ "\n" ++ joinNl (v :: rest)

/-- `Array.from(allUrls).sort().join("\n")`: the downloaded artifact. -/
def serializeUrls (s : List String) : String :=
  joinNl (sortUrls s)

instance : IsTotal String urlLe := by
  constructor
  have key : ∀ x y : List Char, lexLe x y = true ∨ lexLe y x = true := by
    intro x
    induction x with
    | nil => intro y; left; rfl
    | cons a as ih =>
      intro y
      cases y with
      | nil => right; rfl
      | cons b bs =>
        by_cases hab : a = b
        · subst hab
          rcases ih bs with h | h
          · left; simpa [lexLe] using h
          · right; simpa [lexLe] using h
        · rcases lt_trichotomy a b with h | h | h
          · left; simp [lexLe, hab, h]
          · exact absurd h hab
          · right; simp [lexLe, Ne.symm hab, h, not_lt_of_lt h]
  intro x y
  exact key x.data y.data

instance : IsTrans String urlLe := by
  constructor
  have key : ∀ x y z : List Char, lexLe x y = true → lexLe y z = true → lexLe x z = true := by
    intro x
    induction x with
    | nil => intro y z _ _; rfl
    | cons a as ih =>
      intro y z h1 h2
      cases y with
      | nil => simp [lexLe] at h1
      | cons b bs =>
        cases z with
        | nil => simp [lexLe] at h2
        | cons c cs =>
          by_cases hab : a = b
          · subst hab
            simp only [lexLe, if_pos rfl] at h1
            by_cases hbc : a = c
            · subst hbc
              simp only [lexLe, if_pos rfl] at h2 ⊢
              exact ih bs cs h1 h2
            · simp only [lexLe, if_neg hbc] at h2 ⊢
              exact h2
          · simp only [lexLe, if_neg hab, decide_eq_true_iff] at h1
            by_cases hbc : b = c
            · subst hbc
              simp [lexLe, hab, h1]
            · simp only [lexLe, if_neg hbc, decide_eq_true_iff] at h2
              have hac : a < c := lt_trans h1 h2
              simp [lexLe, ne_of_lt hac, hac]
  intro x y z
  exact key x.data y.data z.data

instance : IsAntisymm String urlLe := by
  constructor
  have key : ∀ x y : List Char, lexLe x y = true → lexLe y x = true → x = y := by
    intro x
    induction x with
    | nil =>
      intro y _ h2
      cases y with
      | nil => rfl
      | cons b bs => simp [lexLe] at h2
    | cons a as ih =>
      intro y h1 h2
      cases y with
      | nil => simp [lexLe] at h1
      | cons b bs =>
        by_cases hab : a = b
        · subst hab
          simp only [lexLe, if_pos rfl] at h1 h2
          rw [ih bs h1 h2]
        · simp only [lexLe, if_neg hab, decide_eq_true_iff] at h1
          simp only [lexLe, if_neg (Ne.symm hab), decide_eq_true_iff] at h2
          exact absurd h2 (not_lt_of_lt h1)
  intro x y h1 h2
  have hd : x.data = y.data := key x.data y.data h1 h2
  cases x
  cases y
  exact congrArg String.mk hd

theorem mem_setAdd {s : List String} {u v : String} :
    v ∈ setAdd s u ↔ v ∈ s ∨ v = u := by
  unfold setAdd
  split
  · rename_i h
    constructor
    · exact Or.inl
    · rintro (hv | rfl)
      · exact hv
      · exact h
  · simp

theorem nodup_setAdd {s : List String} {u : String} (h : s.Nodup) :
    (setAdd s u).Nodup := by
  unfold setAdd
  split
  · exact h
  · rename_i hu
    simp [List.nodup_append, h, hu]

theorem setAdd_grows {s : List String} {u : String} : s <+: setAdd s u := by
  unfold setAdd
  split
  · exact ⟨[], by simp⟩
  · exact ⟨[u], rfl⟩

theorem scanLinks_count (ls : List String) :
    ∀ s, (scanLinks ls s).2 = (ls.filter linkMatches).length := by
  induction ls with
  | nil => intro s; rfl
  | cons l ls ih =>
    intro s
    by_cases hm : linkMatches l = true
    · simp [scanLinks, hm, List.filter_cons, ih]
    · rw [Bool.not_eq_true] at hm
      simp [scanLinks, hm, List.filter_cons, ih]

theorem scanLinks_mem (ls : List String) :
    ∀ s u, u ∈ (scanLinks ls s).1 ↔ u ∈ s ∨ (u ∈ ls ∧ linkMatches u = true) := by
  induction ls with
  | nil => intro s u; simp [scanLinks]
  | cons l ls ih =>
    intro s u
    by_cases hm : linkMatches l = true
    · rw [show scanLinks (l :: ls) s = ((scanLinks ls (setAdd s l)).1, (scanLinks ls (setAdd s l)).2 + 1) by simp [scanLinks, hm]]
      rw [ih (setAdd s l) u]
      rw [mem_setAdd]
      constructor
      · rintro ((h | rfl) | ⟨hls, hmu⟩)
        · exact Or.inl h
        · exact Or.inr ⟨List.mem_cons_self _ _, hm⟩
        · exact Or.inr ⟨List.mem_cons_of_mem _ hls, hmu⟩
      · rintro (h | ⟨hmem, hmu⟩)
        · exact Or.inl (Or.inl h)
        · rcases List.mem_cons.mp hmem with rfl | hls
          · exact Or.inl (Or.inr rfl)
          · exact Or.inr ⟨hls, hmu⟩
    · rw [show scanLinks (l :: ls) s = scanLinks ls s by simp [scanLinks, hm]]
      rw [ih s u]
      constructor
      · rintro (h | ⟨hls, hmu⟩)
        · exact Or.inl h
        · exact Or.inr ⟨List.mem_cons_of_mem _ hls, hmu⟩
      · rintro (h | ⟨hmem, hmu⟩)
        · exact Or.inl h
        · rcases List.mem_cons.mp hmem with rfl | hls
          · exact absurd hmu hm
          · exact Or.inr ⟨hls, hmu⟩

theorem scanLinks_grows (ls : List String) :
    ∀ s, s <+: (scanLinks ls s).1 := by
  induction ls with
  | nil => intro s; exact ⟨[], by simp [scanLinks]⟩
  | cons l ls ih =>
    intro s
    by_cases hm : linkMatches l = true
    · rw [show (scanLinks (l :: ls) s).1 = (scanLinks ls (setAdd s l)).1 by simp [scanLinks, hm]]
      exact setAdd_grows.trans (ih (setAdd s l))
    · rw [show (scanLinks (l :: ls) s).1 = (scanLinks ls s).1 by simp [scanLinks, hm]]
      exact ih s

theorem scanLinks_nodup (ls : List String) :
    ∀ s, s.Nodup → (scanLinks ls s).1.Nodup := by
  induction ls with
  | nil => intro s h; exact h
  | cons l ls ih =>
    intro s h
    by_cases hm : linkMatches l = true
    · rw [show (scanLinks (l :: ls) s).1 = (scanLinks ls (setAdd s l)).1 by simp [scanLinks, hm]]
      exact ih _ (nodup_setAdd h)
    · rw [show (scanLinks (l :: ls) s).1 = (scanLinks ls s).1 by simp [scanLinks, hm]]
      exact ih s h

theorem scanLinks_fix (ls : List String) :
    ∀ s, (∀ l ∈ ls, linkMatches l = true → l ∈ s) → (scanLinks ls s).1 = s := by
  induction ls with
  | nil => intro s _; rfl
  | cons l ls ih =>
    intro s h
    by_cases hm : linkMatches l = true
    · rw [show (scanLinks (l :: ls) s).1 = (scanLinks ls (setAdd s l)).1 by simp [scanLinks, hm]]
      have hl : l ∈ s := h l (List.mem_cons_self _ _) hm
      rw [show setAdd s l = s by simp [setAdd, hl]]
      exact ih s (fun x hx => h x (List.mem_cons_of_mem _ hx))
    · rw [show (scanLinks (l :: ls) s).1 = (scanLinks ls s).1 by simp [scanLinks, hm]]
      exact ih s (fun x hx => h x (List.mem_cons_of_mem _ hx))

theorem matches_pdfCandidate {u : String} (h : linkMatches u = true) :
    strIncludes u ".pdf" = true := by
  unfold linkMatches at h
  have h2 := ((Bool.and_eq_true _ _).mp h).2
  unfold strEndsWith at h2
  unfold strIncludes
  obtain ⟨w, hw⟩ := of_decide_eq_true h2
  exact decide_eq_true ⟨w, [], by simp [hw]⟩

theorem filter_pdfCandidates (links : List String) :
    (pdfCandidates links).filter linkMatches = links.filter linkMatches := by
  unfold pdfCandidates
  rw [List.filter_filter]
  apply List.filter_congr
  intro u _
  by_cases hm : linkMatches u = true
  · simp [hm, matches_pdfCandidate hm]
  · rw [Bool.not_eq_true] at hm
    simp [hm]

theorem extract_mem (p : Page) (s : List String) (u : String) :
    u ∈ (extractUrlsFromCurrentPage p s).1 ↔
      u ∈ s ∨ (u ∈ p.links ∧ linkMatches u = true) := by
  unfold extractUrlsFromCurrentPage
  rw [scanLinks_mem]
  constructor
  · rintro (h | ⟨hc, hm⟩)
    · exact Or.inl h
    · exact Or.inr ⟨(List.mem_filter.mp hc).1, hm⟩
  · rintro (h | ⟨hl, hm⟩)
    · exact Or.inl h
    · exact Or.inr ⟨List.mem_filter.mpr ⟨hl, matches_pdfCandidate hm⟩, hm⟩

theorem extract_count (p : Page) (s : List String) :
    (extractUrlsFromCurrentPage p s).2 = (p.links.filter linkMatches).length := by
  unfold extractUrlsFromCurrentPage
  rw [scanLinks_count, filter_pdfCandidates]

theorem extract_grows (p : Page) (s : List String) :
    s <+: (extractUrlsFromCurrentPage p s).1 :=
  scanLinks_grows _ s

theorem extract_nodup (p : Page) {s : List String} (h : s.Nodup) :
    (extractUrlsFromCurrentPage p s).1.Nodup :=
  scanLinks_nodup _ s h

theorem extract_fix (p : Page) (s : List String)
    (h : ∀ u ∈ p.links, linkMatches u = true → u ∈ s) :
    (extractUrlsFromCurrentPage p s).1 = s := by
  unfold extractUrlsFromCurrentPage
  exact scanLinks_fix _ s (fun l hl => h l (List.mem_filter.mp hl).1)

theorem hasNext_goTo {p : Page} (h : hasNextPage p = true) :
    goToNextPage p = true := by
  unfold hasNextPage at h
  unfold goToNextPage
  cases hn : p.next with
  | none => rw [hn] at h; exact absurd h (by simp)
  | some cls => rfl

theorem runAux_log_extend (pages : Nat → Page) :
    ∀ fuel i cur urls found log adv ext r,
      runAux pages fuel i cur urls found log adv ext = some r →
      ∃ t, r.log = log ++ t := by
  intro fuel
  induction fuel with
  | zero =>
    intro i cur urls found log adv ext r h
    exact absurd h (by simp [runAux])
  | succ fuel ih =>
    intro i cur urls found log adv ext r h
    simp only [runAux] at h
    split at h
    · obtain rfl := Option.some_injective _ h.symm
      exact ⟨_, List.append_assoc _ _ _⟩
    · split at h
      · obtain rfl := Option.some_injective _ h.symm
        exact ⟨_, List.append_assoc _ _ _⟩
      · obtain ⟨t, ht⟩ := ih _ _ _ _ _ _ _ _ h
        exact ⟨_, by rw [ht, List.append_assoc]⟩

theorem runAux_advances (pages : Nat → Page) :
    ∀ fuel i cur urls found log adv ext r,
      runAux pages fuel i cur urls found log adv ext = some r →
      (∀ b ∈ adv, b = true) → ∀ b ∈ r.advances, b = true := by
  intro fuel
  induction fuel with
  | zero =>
    intro i cur urls found log adv ext r h
    exact absurd h (by simp [runAux])
  | succ fuel ih =>
    intro i cur urls found log adv ext r h hadv
    simp only [runAux] at h
    split at h
    · obtain rfl := Option.some_injective _ h.symm
      exact hadv
    · rename_i hnext
      split at h
      · obtain rfl := Option.some_injective _ h.symm
        exact hadv
      · refine ih _ _ _ _ _ _ _ _ h ?_
        intro b hb
        rcases List.mem_append.mp hb with hb | hb
        · exact hadv b hb
        · rw [List.mem_singleton.mp hb]
          rw [Bool.not_eq_false] at hnext
          exact hasNext_goTo hnext

theorem runAux_nodup (pages : Nat → Page) :
    ∀ fuel i cur urls found log adv ext r,
      runAux pages fuel i cur urls found log adv ext = some r →
      urls.Nodup → r.urls.Nodup := by
  intro fuel
  induction fuel with
  | zero =>
    intro i cur urls found log adv ext r h
    exact absurd h (by simp [runAux])
  | succ fuel ih =>
    intro i cur urls found log adv ext r h hnd
    simp only [runAux] at h
    split at h
    · obtain rfl := Option.some_injective _ h.symm
      exact extract_nodup _ hnd
    · split at h
      · obtain rfl := Option.some_injective _ h.symm
        exact extract_nodup _ hnd
      · exact ih _ _ _ _ _ _ _ _ h (extract_nodup _ hnd)

theorem runAux_mem (pages : Nat → Page) :
    ∀ fuel i cur urls found log adv ext r,
      runAux pages fuel i cur urls found log adv ext = some r →
      cur < r.currentPage ∧
        ∀ u, u ∈ r.urls ↔ u ∈ urls ∨
          ∃ j, j < r.currentPage - cur ∧ u ∈ (pages (i + j)).links ∧ linkMatches u = true := by
  intro fuel
  induction fuel with
  | zero =>
    intro i cur urls found log adv ext r h
    exact absurd h (by simp [runAux])
  | succ fuel ih =>
    intro i cur urls found log adv ext r h
    simp only [runAux] at h
    split at h
    · obtain rfl := Option.some_injective _ h.symm
      dsimp only
      rw [show cur + 1 - cur = 1 from by omega]
      refine ⟨Nat.lt_succ_self _, fun u => ?_⟩
      rw [extract_mem]
      constructor
      · rintro (hu | ⟨hl, hm⟩)
        · exact Or.inl hu
        · exact Or.inr ⟨0, Nat.zero_lt_one, by rw [Nat.add_zero]; exact hl, hm⟩
      · rintro (hu | ⟨j, hj, hl, hm⟩)
        · exact Or.inl hu
        · have hj0 : j = 0 := by omega
          subst hj0
          rw [Nat.add_zero] at hl
          exact Or.inr ⟨hl, hm⟩
    · split at h
      · obtain rfl := Option.some_injective _ h.symm
        dsimp only
        rw [show cur + 1 - cur = 1 from by omega]
        refine ⟨Nat.lt_succ_self _, fun u => ?_⟩
        rw [extract_mem]
        constructor
        · rintro (hu | ⟨hl, hm⟩)
          · exact Or.inl hu
          · exact Or.inr ⟨0, Nat.zero_lt_one, by rw [Nat.add_zero]; exact hl, hm⟩
        · rintro (hu | ⟨j, hj, hl, hm⟩)
          · exact Or.inl hu
          · have hj0 : j = 0 := by omega
            subst hj0
            rw [Nat.add_zero] at hl
            exact Or.inr ⟨hl, hm⟩
      · obtain ⟨hlt, hmem⟩ := ih _ _ _ _ _ _ _ _ h
        refine ⟨by omega, fun u => ?_⟩
        rw [hmem u, extract_mem]
        constructor
        · rintro ((hu | ⟨hl, hm⟩) | ⟨j, hj, hl, hm⟩)
          · exact Or.inl hu
          · exact Or.inr ⟨0, by omega, by rw [Nat.add_zero]; exact hl, hm⟩
          · refine Or.inr ⟨j + 1, by omega, ?_, hm⟩
            rw [show i + (j + 1) = i + 1 + j from by omega]
            exact hl
        · rintro (hu | ⟨j, hj, hl, hm⟩)
          · exact Or.inl (Or.inl hu)
          · cases j with
            | zero =>
              rw [Nat.add_zero] at hl
              exact Or.inl (Or.inr ⟨hl, hm⟩)
            | succ j =>
              refine Or.inr ⟨j, by omega, ?_, hm⟩
              rw [show i + 1 + j = i + (j + 1) from by omega]
              exact hl

theorem runAux_limit (pages : Nat → Page) (hnext : ∀ i, hasNextPage (pages i) = true) :
    ∀ fuel i cur urls found log adv ext,
      cur < 501 → 501 - cur ≤ fuel →
      ∃ r, runAux pages fuel i cur urls found log adv ext = some r ∧
        r.terminal = Terminal.limitReached ∧ r.currentPage = 501 ∧
        r.extractions = ext + (501 - cur) := by
  intro fuel
  induction fuel with
  | zero =>
    intro i cur urls found log adv ext hcur hfuel
    omega
  | succ fuel ih =>
    intro i cur urls found log adv ext hcur hfuel
    have hn := hnext i
    by_cases hlim : cur + 1 > 500
    · have heq : runAux pages (fuel + 1) i cur urls found log adv ext =
          some ⟨(extractUrlsFromCurrentPage (pages i) urls).1, cur + 1,
            found + (extractUrlsFromCurrentPage (pages i) urls).2,
            (log ++ [statusLine (cur + 1) (extractUrlsFromCurrentPage (pages i) urls).2
              (extractUrlsFromCurrentPage (pages i) urls).1.length]) ++
              ["⚠ Safety limit reached (500 pages)"],
            adv, ext + 1, Terminal.limitReached⟩ := by
        simp only [runAux, hn]
        rw [if_neg (by simp), if_pos hlim]
      exact ⟨_, heq, rfl, by dsimp only; omega, by dsimp only; omega⟩
    · obtain ⟨r, hr, ht, hcp, hext⟩ :=
        ih (i + 1) (cur + 1) (extractUrlsFromCurrentPage (pages i) urls).1
          (found + (extractUrlsFromCurrentPage (pages i) urls).2)
          (log ++ [statusLine (cur + 1) (extractUrlsFromCurrentPage (pages i) urls).2
            (extractUrlsFromCurrentPage (pages i) urls).1.length])
          (adv ++ [goToNextPage (pages i)]) (ext + 1) (by omega) (by omega)
      have heq : runAux pages (fuel + 1) i cur urls found log adv ext =
          runAux pages fuel (i + 1) (cur + 1) (extractUrlsFromCurrentPage (pages i) urls).1
            (found + (extractUrlsFromCurrentPage (pages i) urls).2)
            (log ++ [statusLine (cur + 1) (extractUrlsFromCurrentPage (pages i) urls).2
              (extractUrlsFromCurrentPage (pages i) urls).1.length])
            (adv ++ [goToNextPage (pages i)]) (ext + 1) := by
        simp only [runAux, hn]
        rw [if_neg (by simp), if_neg hlim]
      exact ⟨r, heq.trans hr, ht, hcp, by rw [hext]; omega⟩

theorem runAux_exhaust (pages : Nat → Page) :
    ∀ m fuel i cur urls found log adv ext,
      hasNextPage (pages (i + m)) = false →
      (∀ j, j < m → hasNextPage (pages (i + j)) = true) →
      m < fuel → cur + m ≤ 500 →
      ∃ r, runAux pages fuel i cur urls found log adv ext = some r ∧
        r.terminal = Terminal.exhausted ∧ r.currentPage = cur + m + 1 ∧
        r.extractions = ext + m + 1 := by
  intro m
  induction m with
  | zero =>
    intro fuel i cur urls found log adv ext hlast hbefore hfuel hcur
    obtain ⟨fuel, rfl⟩ : ∃ f, fuel = f + 1 := ⟨fuel - 1, by omega⟩
    rw [Nat.add_zero] at hlast
    have heq : runAux pages (fuel + 1) i cur urls found log adv ext =
        some ⟨(extractUrlsFromCurrentPage (pages i) urls).1, cur + 1,
          found + (extractUrlsFromCurrentPage (pages i) urls).2,
          (log ++ [statusLine (cur + 1) (extractUrlsFromCurrentPage (pages i) urls).2
            (extractUrlsFromCurrentPage (pages i) urls).1.length]) ++
            ["✓ Reached last page!"],
          adv, ext + 1, Terminal.exhausted⟩ := by
      simp only [runAux, hlast]
      rw [if_pos trivial]
    exact ⟨_, heq, rfl, by show cur + 1 = cur + 0 + 1; omega,
      by show ext + 1 = ext + 0 + 1; omega⟩
  | succ m ih =>
    intro fuel i cur urls found log adv ext hlast hbefore hfuel hcur
    obtain ⟨fuel, rfl⟩ : ∃ f, fuel = f + 1 := ⟨fuel - 1, by omega⟩
    have hn : hasNextPage (pages i) = true := by
      have h0 := hbefore 0 (by omega)
      rwa [Nat.add_zero] at h0
    have hlast' : hasNextPage (pages (i + 1 + m)) = false := by
      rw [show i + 1 + m = i + (m + 1) from by omega]
      exact hlast
    have hbefore' : ∀ j, j < m → hasNextPage (pages (i + 1 + j)) = true := by
      intro j hj
      rw [show i + 1 + j = i + (j + 1) from by omega]
      exact hbefore (j + 1) (by omega)
    obtain ⟨r, hr, ht, hcp, hext⟩ :=
      ih fuel (i + 1) (cur + 1) (extractUrlsFromCurrentPage (pages i) urls).1
        (found + (extractUrlsFromCurrentPage (pages i) urls).2)
        (log ++ [statusLine (cur + 1) (extractUrlsFromCurrentPage (pages i) urls).2
          (extractUrlsFromCurrentPage (pages i) urls).1.length])
        (adv ++ [goToNextPage (pages i)]) (ext + 1) hlast' hbefore' (by omega) (by omega)
    have heq : runAux pages (fuel + 1) i cur urls found log adv ext =
        runAux pages fuel (i + 1) (cur + 1) (extractUrlsFromCurrentPage (pages i) urls).1
          (found + (extractUrlsFromCurrentPage (pages i) urls).2)
          (log ++ [statusLine (cur + 1) (extractUrlsFromCurrentPage (pages i) urls).2
            (extractUrlsFromCurrentPage (pages i) urls).1.length])
          (adv ++ [goToNextPage (pages i)]) (ext + 1) := by
      simp only [runAux, hn]
      rw [if_neg (by simp), if_neg (show ¬cur + 1 > 500 from by omega)]
    exact ⟨r, heq.trans hr, ht, by rw [hcp]; omega, by rw [hext]; omega⟩

/-- Claim C1: during a page scan a candidate link's URL ends up in the URL
set if and only if it was already there or it contains the substring
`"/epstein/files/"` and ends with `".pdf"`; a link failing either condition
is excluded from the set and from the per-page count (the count is exactly
the number of links passing both conditions). -/
theorem extract_adds_iff_matches (p : Page) (s : List String) (l : String)
    (hl : l ∈ p.links) :
    (l ∈ (extractUrlsFromCurrentPage p s).1 ↔
      l ∈ s ∨ (strIncludes l "/epstein/files/" = true ∧ strEndsWith l ".pdf" = true)) ∧
    (extractUrlsFromCurrentPage p s).2 = (p.links.filter linkMatches).length := by
  refine ⟨?_, extract_count p s⟩
  rw [extract_mem]
  unfold linkMatches
  constructor
  · rintro (h | ⟨_, hm⟩)
    · exact Or.inl h
    · exact Or.inr ((Bool.and_eq_true _ _).mp hm)
  · rintro (h | ⟨h1, h2⟩)
    · exact Or.inl h
    · exact Or.inr ⟨hl, (Bool.and_eq_true _ _).mpr ⟨h1, h2⟩⟩

/-- Claim C1, witness: concrete instance of `extract_adds_iff_matches`. -/
theorem extract_adds_iff_matches_witness :
    ("https://host/epstein/files/abc.pdf" ∈
        (extractUrlsFromCurrentPage ⟨["https://host/epstein/files/abc.pdf"], none⟩ []).1 ↔
      "https://host/epstein/files/abc.pdf" ∈ ([] : List String) ∨
        (strIncludes "https://host/epstein/files/abc.pdf" "/epstein/files/" = true ∧
          strEndsWith "https://host/epstein/files/abc.pdf" ".pdf" = true)) ∧
    (extractUrlsFromCurrentPage ⟨["https://host/epstein/files/abc.pdf"], none⟩ []).2 =
      ((Page.mk ["https://host/epstein/files/abc.pdf"] none).links.filter linkMatches).length :=
  extract_adds_iff_matches ⟨["https://host/epstein/files/abc.pdf"], none⟩ []
    "https://host/epstein/files/abc.pdf" (by decide)

/-- Claim C2: when the next-page control is always present and enabled, the
loop stops in the limit-reached state after exactly 501 iterations (page
cursor 501) and performs exactly 501 extractions, never a 502nd. -/
theorem loop_safety_bound (pages : Nat → Page) (fuel : Nat)
    (hnext : ∀ i, hasNextPage (pages i) = true) (hfuel : 501 ≤ fuel) :
    ∃ r, run pages fuel = some r ∧ r.terminal = Terminal.limitReached ∧
      r.currentPage = 501 ∧ r.extractions = 501 := by
  obtain ⟨r, hr, ht, hcp, hext⟩ :=
    runAux_limit pages hnext fuel 0 0 [] 0 [] [] 0 (by omega) (by omega)
  exact ⟨r, hr, ht, hcp, by rw [hext]⟩

/-- Claim C2, witness: a run over always-enabled pages with fuel 501. -/
theorem loop_safety_bound_witness :
    ∃ r, run (fun _ => ⟨[], some []⟩) 501 = some r ∧
      r.terminal = Terminal.limitReached ∧ r.currentPage = 501 ∧ r.extractions = 501 :=
  loop_safety_bound (fun _ => ⟨[], some []⟩) 501 (fun _ => rfl) (le_refl _)

/-- Claim C3: when `hasNextPage` is true on the first `k - 1` pages and
false on page `k` (with `1 ≤ k ≤ 501`), the loop stops in the exhausted
state after exactly `k` iterations, with one extraction per page. -/
theorem loop_exhausts_finite (pages : Nat → Page) (fuel k : Nat)
    (hk1 : 1 ≤ k) (hk : k ≤ 501)
    (hlast : hasNextPage (pages (k - 1)) = false)
    (hbefore : ∀ j, j < k - 1 → hasNextPage (pages j) = true)
    (hfuel : k ≤ fuel) :
    ∃ r, run pages fuel = some r ∧ r.terminal = Terminal.exhausted ∧
      r.currentPage = k ∧ r.extractions = k := by
  have hlast' : hasNextPage (pages (0 + (k - 1))) = false := by
    rw [Nat.zero_add]; exact hlast
  have hbefore' : ∀ j, j < k - 1 → hasNextPage (pages (0 + j)) = true := by
    intro j hj; rw [Nat.zero_add]; exact hbefore j hj
  obtain ⟨r, hr, ht, hcp, hext⟩ :=
    runAux_exhaust pages (k - 1) fuel 0 0 [] 0 [] [] 0 hlast' hbefore' (by omega) (by omega)
  exact ⟨r, hr, ht, by rw [hcp]; omega, by rw [hext]; omega⟩

/-- Claim C3, witness: two pages, the second without a next control. -/
theorem loop_exhausts_finite_witness :
    ∃ r, run (fun i => if i = 0 then ⟨[], some []⟩ else ⟨[], none⟩) 2 = some r ∧
      r.terminal = Terminal.exhausted ∧ r.currentPage = 2 ∧ r.extractions = 2 :=
  loop_exhausts_finite (fun i => if i = 0 then ⟨[], some []⟩ else ⟨[], none⟩) 2 2
    (by omega) (by omega) (by rfl)
    (fun j hj => by
      have hj0 : j = 0 := by omega
      rw [hj0]
      rfl) (le_refl _)

/-- Claim C4: the artifact is the set's elements sorted ascending and
newline-joined with no trailing newline; on the set containing
`https://b/x.pdf` and `https://a/y.pdf` the content is exactly
`https://a/y.pdf\nhttps://b/x.pdf`. -/
theorem artifact_sorted_join (s : List String) :
    List.Sorted urlLe (sortUrls s) ∧ List.Perm (sortUrls s) s ∧
    serializeUrls s = joinNl (sortUrls s) ∧
    serializeUrls ["https://b/x.pdf", "https://a/y.pdf"] =
      "https://a/y.pdf\nhttps://b/x.pdf" := by
  refine ⟨List.sorted_insertionSort urlLe s, List.perm_insertionSort urlLe s, rfl, ?_⟩
  decide

/-- Claim C6: scanning the same page content a second time leaves the URL
set unchanged, and in particular its size unchanged. -/
theorem rescan_idempotent (p : Page) (s : List String) :
    (extractUrlsFromCurrentPage p (extractUrlsFromCurrentPage p s).1).1 =
      (extractUrlsFromCurrentPage p s).1 ∧
    (extractUrlsFromCurrentPage p (extractUrlsFromCurrentPage p s).1).1.length =
      (extractUrlsFromCurrentPage p s).1.length := by
  have hfix : (extractUrlsFromCurrentPage p (extractUrlsFromCurrentPage p s).1).1 =
      (extractUrlsFromCurrentPage p s).1 := by
    apply extract_fix
    intro u hu hm
    exact (extract_mem p s u).mpr (Or.inr ⟨hu, hm⟩)
  exact ⟨hfix, by rw [hfix]⟩

/-- Claim C7: `hasNextPage` is true exactly when the next-page control
exists and lacks the disabled marker; an absent control yields false
rather than an error. -/
theorem hasNextPage_control_spec (p : Page) :
    (hasNextPage p = true ↔
      ∃ cls, p.next = some cls ∧ cls.contains "disabled" = false) ∧
    (p.next = none → hasNextPage p = false) := by
  constructor
  · cases hn : p.next with
    | none => simp [hasNextPage, hn]
    | some cls => simp [hasNextPage, hn]
  · intro hn
    simp [hasNextPage, hn]

/-- Claim C7, witness: a page with no next-page control. -/
theorem hasNextPage_control_spec_witness :
    hasNextPage ⟨[], none⟩ = false :=
  (hasNextPage_control_spec ⟨[], none⟩).2 rfl

/-- Claim C8: across the whole loop the URL set only grows (the starting
set is a prefix of the final set, nothing is removed or replaced), and
every element of the final set was in the starting set or passes both
filter conditions; the loop result is then only read, the artifact being
the pure function `serializeUrls` of it. -/
theorem url_set_monotone_filtered (pages : Nat → Page) :
    ∀ fuel i cur urls found log adv ext r,
      runAux pages fuel i cur urls found log adv ext = some r →
      urls <+: r.urls ∧ ∀ u ∈ r.urls, u ∈ urls ∨ linkMatches u = true := by
  intro fuel
  induction fuel with
  | zero =>
    intro i cur urls found log adv ext r h
    exact absurd h (by simp [runAux])
  | succ fuel ih =>
    intro i cur urls found log adv ext r h
    simp only [runAux] at h
    split at h
    · obtain rfl := Option.some_injective _ h.symm
      refine ⟨extract_grows _ _, fun u hu => ?_⟩
      rcases (extract_mem _ _ u).mp hu with h | ⟨_, hm⟩
      · exact Or.inl h
      · exact Or.inr hm
    · split at h
      · obtain rfl := Option.some_injective _ h.symm
        refine ⟨extract_grows _ _, fun u hu => ?_⟩
        rcases (extract_mem _ _ u).mp hu with h | ⟨_, hm⟩
        · exact Or.inl h
        · exact Or.inr hm
      · obtain ⟨hpre, hmem⟩ := ih _ _ _ _ _ _ _ _ h
        refine ⟨(extract_grows _ _).trans hpre, fun u hu => ?_⟩
        rcases hmem u hu with h1 | hm
        · rcases (extract_mem _ _ u).mp h1 with h2 | ⟨_, hm⟩
          · exact Or.inl h2
          · exact Or.inr hm
        · exact Or.inr hm

/-- Claim C5: the per-page count returned by the extractor is the number of
links on the page passing both filter conditions — already-present URLs
included, so it is not the set-size delta — and the status line appended
for the iteration reports exactly this count alongside the running size of
the unique-URL set. -/
theorem per_page_count_reported (pages : Nat → Page) (fuel i cur : Nat)
    (urls : List String) (found : Nat) (log : List String) (adv : List Bool)
    (ext : Nat) (r : RunResult)
    (h : runAux pages (fuel + 1) i cur urls found log adv ext = some r) :
    (extractUrlsFromCurrentPage (pages i) urls).2 =
      ((pages i).links.filter linkMatches).length ∧
    ∃ t, r.log = log ++ [statusLine (cur + 1)
      (extractUrlsFromCurrentPage (pages i) urls).2
      (extractUrlsFromCurrentPage (pages i) urls).1.length] ++ t := by
  refine ⟨extract_count _ _, ?_⟩
  simp only [runAux] at h
  split at h
  · obtain rfl := Option.some_injective _ h.symm
    exact ⟨_, rfl⟩
  · split at h
    · obtain rfl := Option.some_injective _ h.symm
      exact ⟨_, rfl⟩
    · obtain ⟨t, ht⟩ := runAux_log_extend pages fuel _ _ _ _ _ _ _ _ h
      exact ⟨t, ht⟩

/-- Claim C9: every `goToNextPage()` call the loop performs happens in an
iteration whose `hasNextPage()` check returned true, so each recorded
advance returns true (the button-absent branch is unreachable); a present
control always yields a click even though `goToNextPage` never re-checks
the disabled marker. -/
theorem advance_always_clicks (pages : Nat → Page) (fuel : Nat) (r : RunResult)
    (h : run pages fuel = some r) :
    (∀ b ∈ r.advances, b = true) ∧
    (∀ p : Page, hasNextPage p = true → goToNextPage p = true) ∧
    goToNextPage ⟨[], some ["disabled"]⟩ = true := by
  refine ⟨runAux_advances pages fuel 0 0 [] 0 [] [] 0 r h ?_, ?_, rfl⟩
  · intro b hb
    exact absurd hb (List.not_mem_nil b)
  · intro p hp
    exact hasNext_goTo hp

/-- Claim C10: the artifact depends only on the set of matching URLs the
visited pages yield — two runs over page sequences producing the same set
of matching URLs serialize to identical artifact strings, regardless of
page order, distribution, or multiplicity. -/
theorem artifact_function_of_url_set (pages₁ pages₂ : Nat → Page)
    (fuel₁ fuel₂ : Nat) (r₁ r₂ : RunResult)
    (h₁ : run pages₁ fuel₁ = some r₁) (h₂ : run pages₂ fuel₂ = some r₂)
    (hsame : ∀ u,
      (∃ j, j < r₁.currentPage ∧ u ∈ (pages₁ j).links ∧ linkMatches u = true) ↔
      (∃ j, j < r₂.currentPage ∧ u ∈ (pages₂ j).links ∧ linkMatches u = true)) :
    serializeUrls r₁.urls = serializeUrls r₂.urls := by
  have hm₁ := (runAux_mem pages₁ fuel₁ 0 0 [] 0 [] [] 0 r₁ h₁).2
  have hm₂ := (runAux_mem pages₂ fuel₂ 0 0 [] 0 [] [] 0 r₂ h₂).2
  have hmem : ∀ u, u ∈ r₁.urls ↔ u ∈ r₂.urls := by
    intro u
    rw [hm₁ u, hm₂ u]
    simp only [List.not_mem_nil, false_or, Nat.sub_zero, Nat.zero_add]
    exact hsame u
  have hnd₁ : r₁.urls.Nodup :=
    runAux_nodup pages₁ fuel₁ 0 0 [] 0 [] [] 0 r₁ h₁ List.nodup_nil
  have hnd₂ : r₂.urls.Nodup :=
    runAux_nodup pages₂ fuel₂ 0 0 [] 0 [] [] 0 r₂ h₂ List.nodup_nil
  have hperm : List.Perm r₁.urls r₂.urls :=
    (List.perm_ext_iff_of_nodup hnd₁ hnd₂).mpr hmem
  have hsorteq : sortUrls r₁.urls = sortUrls r₂.urls := by
    have hs₁ := List.sorted_insertionSort urlLe r₁.urls
    have hs₂ := List.sorted_insertionSort urlLe r₂.urls
    exact List.eq_of_perm_of_sorted
      ((List.perm_insertionSort urlLe r₁.urls).trans
        (hperm.trans (List.perm_insertionSort urlLe r₂.urls).symm)) hs₁ hs₂
  unfold serializeUrls
  rw [hsorteq]

/-- Claim C5, witness: a one-page run with one matching link. -/
theorem per_page_count_reported_witness :
    (extractUrlsFromCurrentPage ⟨["https://h/epstein/files/a.pdf"], none⟩ []).2 =
      ((Page.mk ["https://h/epstein/files/a.pdf"] none).links.filter linkMatches).length ∧
    ∃ t, (RunResult.mk ["https://h/epstein/files/a.pdf"] 1 1
        ["Page 1: Found 1 files (Total: 1 unique URLs)", "✓ Reached last page!"]
        [] 1 Terminal.exhausted).log =
      [] ++ [statusLine (0 + 1)
        (extractUrlsFromCurrentPage ⟨["https://h/epstein/files/a.pdf"], none⟩ []).2
        (extractUrlsFromCurrentPage ⟨["https://h/epstein/files/a.pdf"], none⟩ []).1.length] ++ t :=
  per_page_count_reported (fun _ => ⟨["https://h/epstein/files/a.pdf"], none⟩) 0 0 0 [] 0 [] [] 0
    (RunResult.mk ["https://h/epstein/files/a.pdf"] 1 1
      ["Page 1: Found 1 files (Total: 1 unique URLs)", "✓ Reached last page!"]
      [] 1 Terminal.exhausted) (by decide)

/-- Claim C8, witness: the same one-page run, starting from the empty set. -/
theorem url_set_monotone_filtered_witness :
    ([] : List String) <+: (RunResult.mk ["https://h/epstein/files/a.pdf"] 1 1
        ["Page 1: Found 1 files (Total: 1 unique URLs)", "✓ Reached last page!"]
        [] 1 Terminal.exhausted).urls ∧
    ∀ u ∈ (RunResult.mk ["https://h/epstein/files/a.pdf"] 1 1
        ["Page 1: Found 1 files (Total: 1 unique URLs)", "✓ Reached last page!"]
        [] 1 Terminal.exhausted).urls, u ∈ ([] : List String) ∨ linkMatches u = true :=
  url_set_monotone_filtered (fun _ => ⟨["https://h/epstein/files/a.pdf"], none⟩) 1 0 0 [] 0 [] [] 0
    (RunResult.mk ["https://h/epstein/files/a.pdf"] 1 1
      ["Page 1: Found 1 files (Total: 1 unique URLs)", "✓ Reached last page!"]
      [] 1 Terminal.exhausted) (by decide)

/-- Claim C9, witness: a two-page run with one recorded advance. -/
theorem advance_always_clicks_witness :
    (∀ b ∈ (RunResult.mk ["https://h/epstein/files/a.pdf"] 2 1
        ["Page 1: Found 1 files (Total: 1 unique URLs)",
          "Page 2: Found 0 files (Total: 1 unique URLs)", "✓ Reached last page!"]
        [true] 2 Terminal.exhausted).advances, b = true) ∧
    (∀ p : Page, hasNextPage p = true → goToNextPage p = true) ∧
    goToNextPage ⟨[], some ["disabled"]⟩ = true :=
  advance_always_clicks
    (fun i => if i = 0 then ⟨["https://h/epstein/files/a.pdf"], some []⟩ else ⟨[], none⟩) 2
    (RunResult.mk ["https://h/epstein/files/a.pdf"] 2 1
      ["Page 1: Found 1 files (Total: 1 unique URLs)",
        "Page 2: Found 0 files (Total: 1 unique URLs)", "✓ Reached last page!"]
      [true] 2 Terminal.exhausted) (by decide)

/-- Claim C10, witness: two runs whose single pages list the same matching
URLs in opposite orders serialize to the same artifact. -/
theorem artifact_function_of_url_set_witness :
    serializeUrls (RunResult.mk
        ["https://h/epstein/files/a.pdf", "https://h/epstein/files/b.pdf"] 1 2
        ["Page 1: Found 2 files (Total: 2 unique URLs)", "✓ Reached last page!"]
        [] 1 Terminal.exhausted).urls =
      serializeUrls (RunResult.mk
        ["https://h/epstein/files/b.pdf", "https://h/epstein/files/a.pdf"] 1 2
        ["Page 1: Found 2 files (Total: 2 unique URLs)", "✓ Reached last page!"]
        [] 1 Terminal.exhausted).urls :=
  artifact_function_of_url_set
    (fun _ => ⟨["https://h/epstein/files/a.pdf", "https://h/epstein/files/b.pdf"], none⟩)
    (fun _ => ⟨["https://h/epstein/files/b.pdf", "https://h/epstein/files/a.pdf"], none⟩)
    1 1
    (RunResult.mk ["https://h/epstein/files/a.pdf", "https://h/epstein/files/b.pdf"] 1 2
      ["Page 1: Found 2 files (Total: 2 unique URLs)", "✓ Reached last page!"]
      [] 1 Terminal.exhausted)
    (RunResult.mk ["https://h/epstein/files/b.pdf", "https://h/epstein/files/a.pdf"] 1 2
      ["Page 1: Found 2 files (Total: 2 unique URLs)", "✓ Reached last page!"]
      [] 1 Terminal.exhausted)
    (by decide) (by decide)
    (by
      intro u
      constructor
      · rintro ⟨j, hj, hu, hm⟩
        refine ⟨0, Nat.zero_lt_one, ?_, hm⟩
        simp only [List.mem_cons, List.not_mem_nil, or_false] at hu ⊢
        tauto
      · rintro ⟨j, hj, hu, hm⟩
        refine ⟨0, Nat.zero_lt_one, ?_, hm⟩
        simp only [List.mem_cons, List.not_mem_nil, or_false] at hu ⊢
        tauto)
